import Mathlib

set_option maxHeartbeats 1000000
set_option linter.unreachableTactic false
set_option linter.unnecessarySeqFocus false
set_option linter.unusedTactic false

/-!
Verification development for the unicode-charname crate: a shallow embedding
of `src/reserved.rs` and `src/lib.rs` (name resolution, name generators and
the fragment reconstruction iterator), with the static name tables of the
`tables` module and the `jamo` module abstracted as a record of lookup
functions, since only their interface is part of the core.
-/

/-! ## Embedding of src/src/reserved.rs -/

/-- Embeds the constant `CODE_POINT_MAX` of reserved.rs. -/
def CODE_POINT_MAX : Nat := 0x10FFFF

/-- Embeds `is_code_point` of reserved.rs. -/
def is_code_point (v : Nat) : Bool := decide (v ≤ CODE_POINT_MAX)

/-- Embeds `is_noncharacter` of reserved.rs: the exact list of ranges the
source matches (note the source lists planes 0..9 and 16 only). -/
def is_noncharacter (v : Nat) : Bool :=
  decide ((0xFDD0 ≤ v ∧ v ≤ 0xFDEF) ∨
    (0xFFFE ≤ v ∧ v ≤ 0xFFFF) ∨
    (0x1FFFE ≤ v ∧ v ≤ 0x1FFFF) ∨
    (0x2FFFE ≤ v ∧ v ≤ 0x2FFFF) ∨
    (0x3FFFE ≤ v ∧ v ≤ 0x3FFFF) ∨
    (0x4FFFE ≤ v ∧ v ≤ 0x4FFFF) ∨
    (0x5FFFE ≤ v ∧ v ≤ 0x5FFFF) ∨
    (0x6FFFE ≤ v ∧ v ≤ 0x6FFFF) ∨
    (0x7FFFE ≤ v ∧ v ≤ 0x7FFFF) ∨
    (0x8FFFE ≤ v ∧ v ≤ 0x8FFFF) ∨
    (0x9FFFE ≤ v ∧ v ≤ 0x9FFFF) ∨
    (0x10FFFE ≤ v ∧ v ≤ 0x10FFFF))

/-! ## The static tables interface (the `tables` and `jamo` modules) -/

/-- The special-group categories of the `tables` module, as matched in
`name_for_special_group_char` of lib.rs. -/
inductive SpecialGroup
  | HangulSyllable
  | CJKIdeographExtensionA
  | CJKIdeograph
  | CJKIdeographExtensionB
  | CJKIdeographExtensionC
  | CJKIdeographExtensionD
  | CJKIdeographExtensionE
  | CJKIdeographExtensionF
  | CJKIdeographExtensionG
  | CJKIdeographExtensionH
  | CJKIdeographExtensionI
  | CJKIdeographExtensionJ
  | TangutIdeograph
  | TangutIdeographSupplement
  | control
  | NonPrivateUseHighSurrogate
  | PrivateUseHighSurrogate
  | LowSurrogate
  | PrivateUse
  | Plane15PrivateUse
  | Plane16PrivateUse
  deriving DecidableEq, Repr

/-- Modelled from the spec: the crate's `tables` module (the compiled static
name tables) and the `jamo` module are external collaborators whose sources
are not part of the core; the spec requires them to expose range search over
the two tables, the word dictionary with its two sentinel index constants and
an is-special predicate, and a deterministic total Hangul name routine.  They
are abstracted here as a record of lookup functions. -/
structure Tables where
  find_in_enumerate_names : Nat → Option (List Nat)
  find_in_special_groups : Nat → Option SpecialGroup
  ENUMERATION_WORD_TABLE : List String
  WORD_TABLE_INDEX_SPACE : Nat
  WORD_TABLE_INDEX_CODEPOINT : Nat
  is_special_word_index : Nat → Bool
  hangul_name : Nat → String

/-- Every word index stored in an enumeration slice is either the
code-point-substitution sentinel or a valid index into the word dictionary
(a data-construction invariant of the static tables). -/
def sliceOk (t : Tables) (slice : List Nat) : Prop :=
  ∀ i ∈ slice, i = t.WORD_TABLE_INDEX_CODEPOINT ∨ i < t.ENUMERATION_WORD_TABLE.length

instance (t : Tables) (s : List Nat) : Decidable (sliceOk t s) :=
  List.decidableBAll
    (fun i => i = t.WORD_TABLE_INDEX_CODEPOINT ∨ i < t.ENUMERATION_WORD_TABLE.length) s

/-- Modelled from the spec: the data-construction invariants of the static
tables (spec sections 3 and 7): both tables only match valid code points,
their coverages are disjoint, the space sentinel is a valid dictionary index
and every stored word index is valid. -/
structure TablesWF (t : Tables) : Prop where
  space_lt : t.WORD_TABLE_INDEX_SPACE < t.ENUMERATION_WORD_TABLE.length
  enum_slices_ok : ∀ v s, t.find_in_enumerate_names v = some s → sliceOk t s
  enum_in_range : ∀ v s, t.find_in_enumerate_names v = some s → v ≤ 0x10FFFF
  special_in_range : ∀ v g, t.find_in_special_groups v = some g → v ≤ 0x10FFFF
  disjoint : ∀ v, t.find_in_enumerate_names v = none ∨ t.find_in_special_groups v = none

/-! ## Hex formatting (the format string 04X of lib.rs) -/

/-- One uppercase hexadecimal digit. -/
def hexDigitCharUpper (n : Nat) : Char := "0123456789ABCDEF".data.getD n '0'

/-- Hex digits of n, least significant first, with fuel for structural
recursion. -/
def hexRevAux : Nat → Nat → List Char
  | 0, _ => []
  | fuel + 1, n => if n = 0 then [] else hexDigitCharUpper (n % 16) :: hexRevAux fuel (n / 16)

/-- Embeds the Rust format specifier 04X used throughout lib.rs: uppercase
hexadecimal, zero padded on the left to at least four digits. -/
def format04X (n : Nat) : String :=
  let ds := (hexRevAux (n + 1) n).reverse
  String.mk (List.replicate (4 - ds.length) '0' ++ ds)

/-! ## Name values (lib.rs) -/

/-- Embeds the enum `NameInner` of lib.rs. -/
inductive NameInner
  | Enumeration (encoded_slice : List Nat) (codepoint_repr : String)
  | Generated (s : String)
  deriving DecidableEq

/-- Embeds the struct `Name` of lib.rs. -/
structure Name where
  inner : NameInner
  deriving DecidableEq

/-- Embeds `impl Default for Name`: a Generated name holding the empty
string. -/
def Name.defaultName : Name := Name.mk (NameInner.Generated "")

/-- Embeds `nr1_name` of lib.rs: the prefix parameter is ignored because
`hangul_name` provides one. -/
def nr1_name (t : Tables) (pfx : String) (v : Nat) : Name :=
  let _ := pfx
  Name.mk (NameInner.Generated (t.hangul_name v))

/-- Embeds `nr2_name` of lib.rs. -/
def nr2_name (pfx : String) (v : Nat) : Name :=
  Name.mk (NameInner.Generated (pfx ++ format04X v))

/-- Embeds `code_point_label` of lib.rs. -/
def code_point_label (pfx : String) (v : Nat) (use_angle_bracket : Bool) : Name :=
  let str :=
    if use_angle_bracket then "<" ++ pfx ++ format04X v ++ ">"
    else pfx ++ format04X v
  Name.mk (NameInner.Generated str)

/-- Embeds the enum `CodePointLabelMode` of lib.rs. -/
inductive CodePointLabelMode
  | None
  | Label (use_angle_bracket : Bool)

/-- Embeds `name_for_special_group_char` of lib.rs. -/
def name_for_special_group_char (t : Tables) (v : Nat) (special_group : SpecialGroup)
    (code_point_label_mode : CodePointLabelMode) : Option Name :=
  match special_group with
  | SpecialGroup.HangulSyllable =>
    some (nr1_name t "HANGUL SYLLABLE " v)
  | SpecialGroup.CJKIdeographExtensionA
  | SpecialGroup.CJKIdeograph
  | SpecialGroup.CJKIdeographExtensionB
  | SpecialGroup.CJKIdeographExtensionC
  | SpecialGroup.CJKIdeographExtensionD
  | SpecialGroup.CJKIdeographExtensionE
  | SpecialGroup.CJKIdeographExtensionF
  | SpecialGroup.CJKIdeographExtensionG
  | SpecialGroup.CJKIdeographExtensionH
  | SpecialGroup.CJKIdeographExtensionI
  | SpecialGroup.CJKIdeographExtensionJ =>
    some (nr2_name "CJK UNIFIED IDEOGRAPH-" v)
  | SpecialGroup.TangutIdeograph
  | SpecialGroup.TangutIdeographSupplement =>
    some (nr2_name "TANGUT IDEOGRAPH-" v)
  | SpecialGroup.control =>
    match code_point_label_mode with
    | CodePointLabelMode.Label use_angle_bracket =>
      some (code_point_label "control-" v use_angle_bracket)
    | CodePointLabelMode.None => none
  | SpecialGroup.NonPrivateUseHighSurrogate
  | SpecialGroup.PrivateUseHighSurrogate
  | SpecialGroup.LowSurrogate =>
    match code_point_label_mode with
    | CodePointLabelMode.Label use_angle_bracket =>
      some (code_point_label "surrogate-" v use_angle_bracket)
    | CodePointLabelMode.None => none
  | SpecialGroup.PrivateUse
  | SpecialGroup.Plane15PrivateUse
  | SpecialGroup.Plane16PrivateUse =>
    match code_point_label_mode with
    | CodePointLabelMode.Label use_angle_bracket =>
      some (code_point_label "private-use-" v use_angle_bracket)
    | CodePointLabelMode.None => none

/-- Embeds `CharName::char_name` for u32 in lib.rs. -/
def char_name (t : Tables) (v : Nat) : Option Name :=
  match t.find_in_enumerate_names v with
  | some slice => some (Name.mk (NameInner.Enumeration slice (format04X v)))
  | none =>
    match t.find_in_special_groups v with
    | some special_group =>
      name_for_special_group_char t v special_group
        (CodePointLabelMode.Label true)
    | none =>
      if is_code_point v then
        if is_noncharacter v then
          some (code_point_label "noncharacter-" v true)
        else
          some (code_point_label "reserved-" v true)
      else
        none

/-- Embeds `CharName::property_name` for u32 in lib.rs. -/
def property_name (t : Tables) (v : Nat) : Option Name :=
  match t.find_in_enumerate_names v with
  | some slice => some (Name.mk (NameInner.Enumeration slice (format04X v)))
  | none =>
    match t.find_in_special_groups v with
    | some special_group =>
      name_for_special_group_char t v special_group CodePointLabelMode.None
    | none => none

/-! ## The reconstruction iterator (lib.rs) -/

/-- Embeds the enum `NameIterState` of lib.rs. -/
inductive NameIterState
  | Initial
  | InsertSpace (cur_special : Bool)
  | Middle (cur_special : Bool)
  | Finished
  deriving DecidableEq, Repr

/-- Embeds the struct `NameIter` of lib.rs (the borrow of the name is a
copied value here). -/
structure NameIter where
  name : NameInner
  offset : Nat
  state : NameIterState

/-- Embeds `Iterator::next` for `NameIter` in lib.rs.  The result is in
`Except Unit`: `Except.error ()` marks a panic of the Rust code, i.e. one of
the two `unreachable` arms or an out-of-bounds index into the word
dictionary; `Except.ok` pairs the yielded item with the updated iterator. -/
def NameIter.next (t : Tables) (it : NameIter) : Except Unit (Option String × NameIter) :=
  match it.name with
  | NameInner.Enumeration encoded_slice codepoint_repr =>
    match it.state with
    | NameIterState.Finished => Except.ok (none, it)
    | st =>
      if encoded_slice.length ≤ it.offset then
        Except.ok (none, { it with state := NameIterState.Finished })
      else
        match st with
        | NameIterState.InsertSpace cur_special =>
          match t.ENUMERATION_WORD_TABLE.get? t.WORD_TABLE_INDEX_SPACE with
          | some w =>
            Except.ok (some w, { it with state := NameIterState.Middle cur_special })
          | none => Except.error ()
        | st2 =>
          let cur_word_idx := encoded_slice.getD it.offset 0
          let new_offset := it.offset + 1
          match
            (match encoded_slice.get? new_offset with
             | some next_word_idx =>
               (match st2 with
                | NameIterState.Initial =>
                  Except.ok (t.is_special_word_index cur_word_idx)
                | NameIterState.Middle cur_special => Except.ok cur_special
                | _ => Except.error ()).map fun cur_special =>
                 let next_special := t.is_special_word_index next_word_idx
                 if !cur_special && !next_special then
                   NameIterState.InsertSpace next_special
                 else
                   NameIterState.Middle next_special
             | none => Except.ok NameIterState.Finished) with
          | Except.error e => Except.error e
          | Except.ok new_state =>
            if cur_word_idx = t.WORD_TABLE_INDEX_CODEPOINT then
              Except.ok (some codepoint_repr,
                { it with offset := new_offset, state := new_state })
            else
              match t.ENUMERATION_WORD_TABLE.get? cur_word_idx with
              | some w =>
                Except.ok (some w, { it with offset := new_offset, state := new_state })
              | none => Except.error ()
  | NameInner.Generated s =>
    match it.state with
    | NameIterState.Initial =>
      Except.ok (some s, { it with state := NameIterState.Finished })
    | NameIterState.Finished => Except.ok (none, it)
    | _ => Except.error ()

/-- Embeds `Name::iter` of lib.rs: a fresh cursor over the name. -/
def Name.iter (n : Name) : NameIter :=
  { name := n.inner, offset := 0, state := NameIterState.Initial }

/-- Run `next` repeatedly, discarding the yielded items; an error propagates. -/
def NameIter.nextN (t : Tables) : Nat → NameIter → Except Unit NameIter
  | 0, it => Except.ok it
  | k + 1, it =>
    match it.next t with
    | Except.ok (_, it2) => NameIter.nextN t k it2
    | Except.error e => Except.error e

/-- Collect the fragments yielded by the iterator, with fuel; collection
stops at the first `none` (as the Display impl does) and at a panic. -/
def NameIter.fragsFuel (t : Tables) : Nat → NameIter → List String
  | 0, _ => []
  | fuel + 1, it =>
    match it.next t with
    | Except.ok (some s, it2) => s :: NameIter.fragsFuel t fuel it2
    | _ => []

/-- Fuel that always suffices to exhaust the iterator of a name. -/
def Name.fuelOf (n : Name) : Nat :=
  match n.inner with
  | NameInner.Enumeration s _ => 2 * s.length + 2
  | NameInner.Generated _ => 2

/-- The full fragment sequence of a name, as produced by a fresh iterator. -/
def Name.fragments (t : Tables) (n : Name) : List String :=
  NameIter.fragsFuel t n.fuelOf n.iter

/-- Embeds `impl Display for Name` of lib.rs: the fragments written in
order, i.e. their concatenation. -/
def Name.render (t : Tables) (n : Name) : String :=
  String.join (Name.fragments t n)

/-! ## Specification-side description of enumeration rendering -/

/-- The text a word index stands for: the cached hex text at the
code-point-substitution sentinel, the dictionary word otherwise. -/
def wordText (t : Tables) (repr : String) (i : Nat) : String :=
  if i = t.WORD_TABLE_INDEX_CODEPOINT then repr
  else t.ENUMERATION_WORD_TABLE.getD i ""

/-- The dictionary word at the space sentinel. -/
def spaceWord (t : Tables) : String :=
  t.ENUMERATION_WORD_TABLE.getD t.WORD_TABLE_INDEX_SPACE ""

/-- Written from the spec's words for the claim about enumeration
rendering: the words of the slice left to right, a single space fragment
between two consecutive words exactly when neither is flagged special. -/
def renderWords (t : Tables) (repr : String) : List Nat → List String
  | [] => []
  | [i] => [wordText t repr i]
  | i :: j :: rest =>
    if !t.is_special_word_index i && !t.is_special_word_index j then
      wordText t repr i :: spaceWord t :: renderWords t repr (j :: rest)
    else
      wordText t repr i :: renderWords t repr (j :: rest)

/-- The state the iterator moves to after emitting the word at offset o from
a ready (Initial or coherent Middle) state: used to characterise one step of
`next`. -/
def nextStateAfterWord (t : Tables) (slice : List Nat) (o : Nat) : NameIterState :=
  match slice.get? (o + 1) with
  | none => NameIterState.Finished
  | some j =>
    let spc := t.is_special_word_index (slice.getD o 0)
    let spj := t.is_special_word_index j
    if !spc && !spj then NameIterState.InsertSpace spj else NameIterState.Middle spj

/-! ## Iterator invariants and measure -/

/-- The invariant every iterator reachable from `Name::iter` maintains: an
enumeration iterator carries a well-formed slice, a generated iterator is in
the Initial or Finished state. -/
def iterOk (t : Tables) (it : NameIter) : Prop :=
  match it.name with
  | NameInner.Enumeration s _ => sliceOk t s
  | NameInner.Generated _ =>
    it.state = NameIterState.Initial ∨ it.state = NameIterState.Finished

/-- A name whose iterator satisfies the invariant from the start. -/
def nameOk (t : Tables) (n : Name) : Prop :=
  match n.inner with
  | NameInner.Enumeration s _ => sliceOk t s
  | NameInner.Generated _ => True

/-- Termination measure for the iterator. -/
def iterMeasure (it : NameIter) : Nat :=
  match it.state with
  | NameIterState.Finished => 0
  | st =>
    match it.name with
    | NameInner.Enumeration s _ =>
      2 * (s.length - it.offset) +
        (match st with
         | NameIterState.InsertSpace _ => 2
         | _ => 1)
    | NameInner.Generated _ => 1

/-! ## A small concrete instance of the tables, for closed evaluations -/

/-- A small word dictionary: index 0 is the space word, index 1 the
code-point-substitution sentinel, index 6 a special (tight-binding) word. -/
def demoWords : List String := [" ", "CP", "LATIN", "CAPITAL", "LETTER", "A", "-"]

/-- A small concrete table instance satisfying the static-table
invariants. -/
def demoTable : Tables where
  find_in_enumerate_names := fun v => if v = 65 then some [2, 3, 4, 5] else none
  find_in_special_groups := fun v =>
    if v = 0x81 then some SpecialGroup.control
    else if v = 0xD800 then some SpecialGroup.NonPrivateUseHighSurrogate
    else if v = 0xDC00 then some SpecialGroup.LowSurrogate
    else if v = 0xE000 then some SpecialGroup.PrivateUse
    else if v = 0x20000 then some SpecialGroup.CJKIdeographExtensionB
    else if v = 0x17000 then some SpecialGroup.TangutIdeograph
    else if v = 0xAC00 then some SpecialGroup.HangulSyllable
    else none
  ENUMERATION_WORD_TABLE := demoWords
  WORD_TABLE_INDEX_SPACE := 0
  WORD_TABLE_INDEX_CODEPOINT := 1
  is_special_word_index := fun i => i == 6
  hangul_name := fun _ => "HANGUL SYLLABLE GA"

/-! ## Classification helpers used to state the claims -/

/-- The CJK ideograph sub-categories (all rendered with the CJK prefix). -/
def isCJKGroup : SpecialGroup → Bool
  | SpecialGroup.CJKIdeographExtensionA
  | SpecialGroup.CJKIdeograph
  | SpecialGroup.CJKIdeographExtensionB
  | SpecialGroup.CJKIdeographExtensionC
  | SpecialGroup.CJKIdeographExtensionD
  | SpecialGroup.CJKIdeographExtensionE
  | SpecialGroup.CJKIdeographExtensionF
  | SpecialGroup.CJKIdeographExtensionG
  | SpecialGroup.CJKIdeographExtensionH
  | SpecialGroup.CJKIdeographExtensionI
  | SpecialGroup.CJKIdeographExtensionJ => true
  | _ => false

/-- The Tangut ideograph sub-categories. -/
def isTangutGroup : SpecialGroup → Bool
  | SpecialGroup.TangutIdeograph
  | SpecialGroup.TangutIdeographSupplement => true
  | _ => false

/-- The surrogate sub-bands. -/
def isSurrogateGroup : SpecialGroup → Bool
  | SpecialGroup.NonPrivateUseHighSurrogate
  | SpecialGroup.PrivateUseHighSurrogate
  | SpecialGroup.LowSurrogate => true
  | _ => false

/-- The private-use sub-bands. -/
def isPrivateUseGroup : SpecialGroup → Bool
  | SpecialGroup.PrivateUse
  | SpecialGroup.Plane15PrivateUse
  | SpecialGroup.Plane16PrivateUse => true
  | _ => false

/-- The label categories: those whose rendering depends on the label mode. -/
def isLabelGroup (g : SpecialGroup) : Bool :=
  g = SpecialGroup.control || isSurrogateGroup g || isPrivateUseGroup g

/-- The classes of code points whose Name property is empty, in terms of the
tables: out of range, a label category match, or matched by neither table
while in range (reserved or noncharacter). -/
def noNameClass (t : Tables) (c : Nat) : Prop :=
  0x10FFFF < c ∨
    (∃ g, t.find_in_special_groups c = some g ∧ isLabelGroup g = true) ∨
    (c ≤ 0x10FFFF ∧ t.find_in_enumerate_names c = none ∧
      t.find_in_special_groups c = none)

/-! ## Iterator lemmas -/

theorem finished_next (t : Tables) (it : NameIter) (h : it.state = NameIterState.Finished) :
    it.next t = Except.ok (none, it) := by
  obtain ⟨nm, o, st⟩ := it
  cases nm <;> simp_all [NameIter.next]

theorem next_none_state (t : Tables) (it it2 : NameIter)
    (h : it.next t = Except.ok (none, it2)) : it2.state = NameIterState.Finished := by
  obtain ⟨nm, o, st⟩ := it
  cases nm with
  | Enumeration slice repr =>
    cases st <;> simp only [NameIter.next] at h
    case Finished => cases h; rfl
    all_goals {
      split at h
      · cases h; rfl
      · repeat' split at h
        all_goals simp_all
    }
  | Generated s =>
    cases st <;> simp_all [NameIter.next] <;> cases h <;> rfl

theorem step_ok (t : Tables) (hWF : TablesWF t) (it : NameIter) (h : iterOk t it) :
    ∃ p it2, it.next t = Except.ok (p, it2) ∧ iterOk t it2 ∧ it2.name = it.name := by
  obtain ⟨nm, o, st⟩ := it
  cases nm with
  | Enumeration slice repr =>
    have hs : sliceOk t slice := h
    cases st <;> simp only [NameIter.next]
    case Finished => exact ⟨none, _, rfl, h, rfl⟩
    case InsertSpace cs =>
      split
      · exact ⟨none, _, rfl, h, rfl⟩
      · rw [List.get?_eq_get hWF.space_lt]
        exact ⟨_, _, rfl, h, rfl⟩
    all_goals {
      split
      · exact ⟨none, _, rfl, h, rfl⟩
      · rename_i hlen
        have ho : o < slice.length := by omega
        have hcur : slice.getD o 0 ∈ slice := by
          rw [List.getD_eq_getElem slice 0 ho]
          exact List.getElem_mem ho
        cases hj : slice.get? (o + 1) <;> simp only [hj, Except.map]
        · rcases hs _ hcur with hcp | hlt
          · rw [if_pos hcp]
            exact ⟨_, _, rfl, h, rfl⟩
          · by_cases hcp : slice.getD o 0 = t.WORD_TABLE_INDEX_CODEPOINT
            · rw [if_pos hcp]
              exact ⟨_, _, rfl, h, rfl⟩
            · rw [if_neg hcp, List.get?_eq_get hlt]
              exact ⟨_, _, rfl, h, rfl⟩
        · rcases hs _ hcur with hcp | hlt
          · rw [if_pos hcp]
            exact ⟨_, _, rfl, h, rfl⟩
          · by_cases hcp : slice.getD o 0 = t.WORD_TABLE_INDEX_CODEPOINT
            · rw [if_pos hcp]
              exact ⟨_, _, rfl, h, rfl⟩
            · rw [if_neg hcp, List.get?_eq_get hlt]
              exact ⟨_, _, rfl, h, rfl⟩
    }
  | Generated s =>
    rcases h with h | h <;> cases h
    · exact ⟨some s, _, rfl, Or.inr rfl, rfl⟩
    · exact ⟨none, _, rfl, Or.inr rfl, rfl⟩

theorem step_measure (t : Tables) (it : NameIter) (p : Option String) (it2 : NameIter)
    (h : it.next t = Except.ok (p, it2)) :
    (it.state = NameIterState.Finished ∧ it2 = it ∧ p = none) ∨
      iterMeasure it2 < iterMeasure it := by
  obtain ⟨nm, o, st⟩ := it
  cases nm with
  | Enumeration slice repr =>
    cases st <;> simp only [NameIter.next] at h
    case Finished =>
      cases h
      exact Or.inl ⟨rfl, rfl, rfl⟩
    all_goals {
      refine Or.inr ?_
      split at h
      · cases h
        simp only [iterMeasure]
        omega
      · rename_i hlen
        repeat' split at h
        all_goals (try cases h)
        all_goals simp_all only [iterMeasure]
        all_goals (first | omega | ((repeat' split) <;> omega))
    }
  | Generated s =>
    cases st <;> simp only [NameIter.next] at h <;> cases h
    · exact Or.inr (by simp [iterMeasure])
    · exact Or.inl ⟨rfl, rfl, rfl⟩

theorem nextN_ok (t : Tables) (hWF : TablesWF t) (k : Nat) :
    ∀ it : NameIter, iterOk t it →
      ∃ it2, NameIter.nextN t k it = Except.ok it2 ∧ iterOk t it2 := by
  induction k with
  | zero => exact fun it h => ⟨it, rfl, h⟩
  | succ k ih =>
    intro it h
    obtain ⟨p, it2, hn, h2, -⟩ := step_ok t hWF it h
    obtain ⟨it3, h3, h4⟩ := ih it2 h2
    refine ⟨it3, ?_, h4⟩
    simp only [NameIter.nextN, hn]
    exact h3

theorem measure_zero_finished (it : NameIter) (h : iterMeasure it = 0) :
    it.state = NameIterState.Finished := by
  obtain ⟨nm, o, st⟩ := it
  cases st <;> cases nm <;> simp_all [iterMeasure]

theorem fragsFuel_finished (t : Tables) (it : NameIter)
    (h : it.state = NameIterState.Finished) (f : Nat) :
    NameIter.fragsFuel t f it = [] := by
  cases f with
  | zero => rfl
  | succ f => simp only [NameIter.fragsFuel, finished_next t it h]

theorem reach_finished (t : Tables) (hWF : TablesWF t) (m : Nat) :
    ∀ it : NameIter, iterMeasure it ≤ m → iterOk t it →
      ∃ k it2, k ≤ iterMeasure it ∧ NameIter.nextN t k it = Except.ok it2 ∧
        it2.state = NameIterState.Finished := by
  induction m with
  | zero =>
    intro it hm h
    exact ⟨0, it, Nat.zero_le _, rfl, measure_zero_finished it (by omega)⟩
  | succ m ih =>
    intro it hm h
    by_cases hf : it.state = NameIterState.Finished
    · exact ⟨0, it, Nat.zero_le _, rfl, hf⟩
    · obtain ⟨p, it2, hn, h2, -⟩ := step_ok t hWF it h
      have hlt : iterMeasure it2 < iterMeasure it := by
        rcases step_measure t it p it2 hn with ⟨hc, -, -⟩ | hlt
        · exact absurd hc hf
        · exact hlt
      obtain ⟨k2, it3, hk2, hrun, hfin⟩ := ih it2 (by omega) h2
      refine ⟨k2 + 1, it3, by omega, ?_, hfin⟩
      simp only [NameIter.nextN, hn]
      exact hrun

theorem fragsFuel_stable (t : Tables) (hWF : TablesWF t) (m : Nat) :
    ∀ it : NameIter, iterMeasure it ≤ m → iterOk t it →
      ∀ f, iterMeasure it ≤ f →
        NameIter.fragsFuel t f it = NameIter.fragsFuel t (iterMeasure it) it := by
  induction m with
  | zero =>
    intro it hm h f hf
    have h0 : iterMeasure it = 0 := by omega
    rw [h0, fragsFuel_finished t it (measure_zero_finished it h0),
      fragsFuel_finished t it (measure_zero_finished it h0)]
  | succ m ih =>
    intro it hm h f hf
    by_cases h0 : iterMeasure it = 0
    · rw [h0, fragsFuel_finished t it (measure_zero_finished it h0),
        fragsFuel_finished t it (measure_zero_finished it h0)]
    · have hfin : ¬it.state = NameIterState.Finished := by
        intro hc
        apply h0
        obtain ⟨nm, o, st⟩ := it
        cases hc
        rfl
      obtain ⟨p, it2, hn, h2, -⟩ := step_ok t hWF it h
      have hlt : iterMeasure it2 < iterMeasure it := by
        rcases step_measure t it p it2 hn with ⟨hc, -, -⟩ | hlt
        · exact absurd hc hfin
        · exact hlt
      obtain ⟨f2, rfl⟩ : ∃ f2, f = f2 + 1 := ⟨f - 1, by omega⟩
      obtain ⟨m2, hm2⟩ : ∃ m2, iterMeasure it = m2 + 1 := ⟨iterMeasure it - 1, by omega⟩
      cases p with
      | none =>
        rw [hm2]
        simp only [NameIter.fragsFuel, hn]
      | some s =>
        rw [hm2]
        simp only [NameIter.fragsFuel, hn]
        have e1 := ih it2 (by omega) h2 f2 (by omega)
        have e2 := ih it2 (by omega) h2 m2 (by omega)
        rw [e1, e2]

theorem next_ready (t : Tables) (slice : List Nat) (hs : sliceOk t slice)
    (repr : String) (o : Nat) (st : NameIterState) (ho : o < slice.length)
    (hst : st = NameIterState.Initial ∨
      ∃ cs, st = NameIterState.Middle cs ∧
        cs = t.is_special_word_index (slice.getD o 0)) :
    NameIter.next t ⟨NameInner.Enumeration slice repr, o, st⟩ =
      Except.ok (some (wordText t repr (slice.getD o 0)),
        ⟨NameInner.Enumeration slice repr, o + 1, nextStateAfterWord t slice o⟩) := by
  have hcur : slice.getD o 0 ∈ slice := by
    rw [List.getD_eq_getElem slice 0 ho]
    exact List.getElem_mem ho
  have hw : (if slice.getD o 0 = t.WORD_TABLE_INDEX_CODEPOINT then repr
      else t.ENUMERATION_WORD_TABLE.getD (slice.getD o 0) "") = wordText t repr (slice.getD o 0) := rfl
  rcases hst with rfl | ⟨cs, rfl, hcs⟩ <;>
    simp only [NameIter.next] <;>
    rw [if_neg (by omega)] <;>
    cases hj : slice.get? (o + 1) <;>
    simp only [hj, Except.map, nextStateAfterWord] <;>
    [skip; skip; subst hcs; subst hcs] <;>
    (rcases hs _ hcur with hcp | hlt
     · rw [if_pos hcp]
       simp only [wordText, if_pos hcp]
     · by_cases hcp : slice.getD o 0 = t.WORD_TABLE_INDEX_CODEPOINT
       · rw [if_pos hcp]
         simp only [wordText, if_pos hcp]
       · rw [if_neg hcp, List.get?_eq_get hlt]
         simp only [wordText, if_neg hcp]
         rw [List.getD_eq_getElem _ _ hlt]
         rfl)

theorem next_insert (t : Tables) (hWF : TablesWF t) (slice : List Nat) (repr : String)
    (o : Nat) (cs : Bool) (ho : o < slice.length) :
    NameIter.next t ⟨NameInner.Enumeration slice repr, o, NameIterState.InsertSpace cs⟩ =
      Except.ok (some (spaceWord t),
        ⟨NameInner.Enumeration slice repr, o, NameIterState.Middle cs⟩) := by
  simp only [NameIter.next]
  rw [if_neg (by omega), List.get?_eq_get hWF.space_lt]
  simp only [spaceWord]
  rw [List.getD_eq_getElem _ _ hWF.space_lt]
  rfl

theorem frags_ready (t : Tables) (hWF : TablesWF t) (slice : List Nat)
    (hs : sliceOk t slice) (repr : String) (k : Nat) :
    ∀ (o : Nat) (st : NameIterState) (fuel : Nat),
      slice.length - o ≤ k → 2 * (slice.length - o) + 1 ≤ fuel →
      (st = NameIterState.Initial ∨
        ∃ cs, st = NameIterState.Middle cs ∧
          cs = t.is_special_word_index (slice.getD o 0)) →
      NameIter.fragsFuel t fuel ⟨NameInner.Enumeration slice repr, o, st⟩ =
        renderWords t repr (slice.drop o) := by
  induction k with
  | zero =>
    intro o st fuel hk hfuel hst
    have hlen : slice.length ≤ o := by omega
    obtain ⟨f, rfl⟩ : ∃ f, fuel = f + 1 := ⟨fuel - 1, by omega⟩
    rw [List.drop_eq_nil_of_le hlen]
    rcases hst with rfl | ⟨cs, rfl, -⟩ <;>
      simp only [NameIter.fragsFuel, NameIter.next] <;>
      rw [if_pos hlen] <;> rfl
  | succ k ih =>
    intro o st fuel hk hfuel hst
    by_cases hlen : slice.length ≤ o
    · obtain ⟨f, rfl⟩ : ∃ f, fuel = f + 1 := ⟨fuel - 1, by omega⟩
      rw [List.drop_eq_nil_of_le hlen]
      rcases hst with rfl | ⟨cs, rfl, -⟩ <;>
        simp only [NameIter.fragsFuel, NameIter.next] <;>
        rw [if_pos hlen] <;> rfl
    · have ho : o < slice.length := by omega
      obtain ⟨f, rfl⟩ : ∃ f, fuel = f + 1 := ⟨fuel - 1, by omega⟩
      have hdrop : slice.drop o = slice[o] :: slice.drop (o + 1) :=
        List.drop_eq_getElem_cons ho
      have hcurD : slice.getD o 0 = slice[o] := List.getD_eq_getElem slice 0 ho
      rw [NameIter.fragsFuel, next_ready t slice hs repr o st ho hst]
      cases hj : slice.get? (o + 1) with
      | none =>
        have hlen2 : slice.length ≤ o + 1 := by
          by_contra hc
          rw [List.get?_eq_get (by omega : o + 1 < slice.length)] at hj
          cases hj
        have hdrop2 : slice.drop (o + 1) = [] := List.drop_eq_nil_of_le hlen2
        simp only [nextStateAfterWord, hj]
        rw [fragsFuel_finished t _ rfl]
        rw [hdrop, hdrop2, renderWords, hcurD]
      | some j =>
        obtain ⟨ho2, hgetj⟩ := List.get?_eq_some.mp hj
        have hjel : slice[o + 1] = j := by
          rw [← hgetj]
          rfl
        have hdrop2 : slice.drop (o + 1) = j :: slice.drop (o + 2) := by
          rw [List.drop_eq_getElem_cons ho2, hjel]
        simp only [nextStateAfterWord, hj]
        by_cases hsp : (!t.is_special_word_index (slice.getD o 0) &&
            !t.is_special_word_index j) = true
        · rw [if_pos hsp]
          obtain ⟨f2, rfl⟩ : ∃ f2, f = f2 + 1 := ⟨f - 1, by omega⟩
          rw [NameIter.fragsFuel, next_insert t hWF slice repr (o + 1) _ ho2]
          show wordText t repr (slice.getD o 0) :: spaceWord t ::
            NameIter.fragsFuel t f2 ⟨NameInner.Enumeration slice repr, o + 1,
              NameIterState.Middle (t.is_special_word_index j)⟩ = _
          rw [ih (o + 1) _ f2 (by omega) (by omega)
            (Or.inr ⟨_, rfl, by rw [List.getD_eq_getElem slice 0 ho2, hjel]⟩)]
          rw [hdrop, hdrop2, renderWords, ← hdrop2, hcurD]
          rw [hcurD] at hsp
          rw [if_pos hsp]
        · rw [if_neg hsp]
          rw [ih (o + 1) _ f (by omega) (by omega)
            (Or.inr ⟨_, rfl, by rw [List.getD_eq_getElem slice 0 ho2, hjel]⟩)]
          rw [hdrop, hdrop2, renderWords, ← hdrop2, hcurD]
          rw [hcurD] at hsp
          rw [if_neg hsp]

theorem fragments_enum (t : Tables) (hWF : TablesWF t) (slice : List Nat)
    (hs : sliceOk t slice) (repr : String) :
    Name.fragments t (Name.mk (NameInner.Enumeration slice repr)) =
      renderWords t repr slice := by
  have h := frags_ready t hWF slice hs repr slice.length 0 NameIterState.Initial
    (2 * slice.length + 2) (by omega) (by omega) (Or.inl rfl)
  simpa [Name.fragments, Name.fuelOf, Name.iter] using h

theorem fragments_generated (t : Tables) (s : String) :
    Name.fragments t (Name.mk (NameInner.Generated s)) = [s] := rfl

theorem empty_append_str (s : String) : "" ++ s = s := by
  cases s
  simp [String.append]

theorem render_generated (t : Tables) (s : String) :
    Name.render t (Name.mk (NameInner.Generated s)) = s := by
  rw [Name.render, fragments_generated]
  simp only [String.join]
  exact empty_append_str s

theorem special_group_name_generated (t : Tables) (v : Nat) (g : SpecialGroup)
    (m : CodePointLabelMode) (n : Name)
    (h : name_for_special_group_char t v g m = some n) :
    ∃ s, n.inner = NameInner.Generated s := by
  cases g <;> cases m <;>
    simp [name_for_special_group_char, nr1_name, nr2_name, code_point_label] at h <;>
    first
    | (cases h; exact ⟨_, rfl⟩)
    | exact ⟨_, h ▸ rfl⟩

theorem char_name_nameOk (t : Tables) (hWF : TablesWF t) (v : Nat) (n : Name)
    (h : char_name t v = some n) : nameOk t n := by
  cases he : t.find_in_enumerate_names v with
  | some slice =>
    simp only [char_name, he] at h
    cases h
    exact hWF.enum_slices_ok v slice he
  | none =>
    cases hg : t.find_in_special_groups v with
    | some g =>
      simp only [char_name, he, hg] at h
      obtain ⟨s, hsn⟩ := special_group_name_generated t v g _ n h
      rw [nameOk, hsn]
      trivial
    | none =>
      simp only [char_name, he, hg] at h
      split at h
      · split at h <;> (cases h; trivial)
      · cases h

theorem property_name_nameOk (t : Tables) (hWF : TablesWF t) (v : Nat) (n : Name)
    (h : property_name t v = some n) : nameOk t n := by
  cases he : t.find_in_enumerate_names v with
  | some slice =>
    simp only [property_name, he] at h
    cases h
    exact hWF.enum_slices_ok v slice he
  | none =>
    cases hg : t.find_in_special_groups v with
    | some g =>
      simp only [property_name, he, hg] at h
      obtain ⟨s, hsn⟩ := special_group_name_generated t v g _ n h
      rw [nameOk, hsn]
      trivial
    | none =>
      simp only [property_name, he, hg] at h
      cases h

theorem nameOk_iterOk (t : Tables) (n : Name) (h : nameOk t n) : iterOk t n.iter := by
  obtain ⟨inner⟩ := n
  cases inner with
  | Enumeration s r => exact h
  | Generated s => exact Or.inl rfl

/-! ## Facts about the demo tables -/

theorem demoTable_wf : TablesWF demoTable := by
  constructor
  · decide
  · intro v s h
    simp only [demoTable] at h
    split at h
    · cases h
      decide
    · cases h
  · intro v s h
    simp only [demoTable] at h
    split at h
    · omega
    · cases h
  · intro v g h
    simp only [demoTable] at h
    repeat' split at h
    all_goals first | omega | cases h
  · intro v
    by_cases hv : v = 65
    · subst hv
      right
      decide
    · left
      simp only [demoTable]
      rw [if_neg hv]

theorem demo_slice_ok : sliceOk demoTable [2, 3, 4, 5] := by decide

theorem measure_le_fuelOf (n : Name) : iterMeasure n.iter ≤ n.fuelOf := by
  obtain ⟨inner⟩ := n
  cases inner <;> simp [Name.iter, iterMeasure, Name.fuelOf] <;> omega

/-! ## The claims -/

/-- Claim C10: the Finished state is absorbing — once `next` returns `None`,
every subsequent call to `next` on the resulting iterator also returns
`None`, for enumerated and generated names alike (fused-iterator
behaviour). -/
theorem c10_finished_absorbing (t : Tables) (it it2 : NameIter)
    (h : it.next t = Except.ok (none, it2)) :
    it2.next t = Except.ok (none, it2) ∧
      ∀ k, NameIter.nextN t k it2 = Except.ok it2 := by
  have hf := next_none_state t it it2 h
  have hn := finished_next t it2 hf
  refine ⟨hn, ?_⟩
  intro k
  induction k with
  | zero => rfl
  | succ k ih =>
    simp only [NameIter.nextN, hn]
    exact ih

/-- Claim C10 witness: the absorbing behaviour at a concrete iterator over
an empty slice. -/
theorem c10_witness :
    NameIter.next demoTable ⟨NameInner.Enumeration [] "", 0, NameIterState.Initial⟩ =
      Except.ok (none, ⟨NameInner.Enumeration [] "", 0, NameIterState.Finished⟩) ∧
    NameIter.nextN demoTable 3 ⟨NameInner.Enumeration [] "", 0, NameIterState.Finished⟩ =
      Except.ok ⟨NameInner.Enumeration [] "", 0, NameIterState.Finished⟩ :=
  ⟨rfl, (c10_finished_absorbing demoTable
    ⟨NameInner.Enumeration [] "", 0, NameIterState.Initial⟩
    ⟨NameInner.Enumeration [] "", 0, NameIterState.Finished⟩ rfl).2 3⟩

/-- Claim C9: for every iterator obtained via `Name::iter` from a name
constructed by `char_name`, `property_name` or `Default`, no number of
`next` calls ever reaches a panic — neither of the two `unreachable` arms
runs and every word-table index is in bounds (the `Except.error` outcome of
the embedded `next`, which models exactly those events, never occurs). -/
theorem c9_no_unreachable_or_oob (t : Tables) (hWF : TablesWF t) (v : Nat) (n : Name)
    (h : char_name t v = some n ∨ property_name t v = some n ∨ n = Name.defaultName) :
    ∀ k, ∃ it2, NameIter.nextN t k n.iter = Except.ok it2 := by
  have hok : nameOk t n := by
    rcases h with h | h | h
    · exact char_name_nameOk t hWF v n h
    · exact property_name_nameOk t hWF v n h
    · subst h
      exact trivial
  intro k
  obtain ⟨it2, h1, -⟩ := nextN_ok t hWF k n.iter (nameOk_iterOk t n hok)
  exact ⟨it2, h1⟩

/-- Claim C9 witness: ten panic-free steps on the name of code point 65 in
the demo tables. -/
theorem c9_witness :
    TablesWF demoTable ∧
    char_name demoTable 65 = some (Name.mk (NameInner.Enumeration [2, 3, 4, 5] "0041")) ∧
    ∃ it2, NameIter.nextN demoTable 10
      (Name.mk (NameInner.Enumeration [2, 3, 4, 5] "0041")).iter = Except.ok it2 :=
  ⟨demoTable_wf, rfl,
    c9_no_unreachable_or_oob demoTable demoTable_wf 65
      (Name.mk (NameInner.Enumeration [2, 3, 4, 5] "0041")) (Or.inl rfl) 10⟩

/-- Claim C8: the fragment sequence of every Name is finite — from a fresh
iterator, a bounded number of `next` calls (at most two per slice entry plus
a constant) reaches the Finished state, after which `next` returns `None`,
so rendering unconditionally terminates. -/
theorem c8_iteration_terminates (t : Tables) (hWF : TablesWF t) (n : Name)
    (hn : nameOk t n) :
    ∃ k it2, k ≤ n.fuelOf ∧ NameIter.nextN t k n.iter = Except.ok it2 ∧
      it2.state = NameIterState.Finished ∧ it2.next t = Except.ok (none, it2) := by
  obtain ⟨k, it2, hk, hrun, hfin⟩ :=
    reach_finished t hWF (iterMeasure n.iter) n.iter le_rfl (nameOk_iterOk t n hn)
  have hle := measure_le_fuelOf n
  exact ⟨k, it2, by omega, hrun, hfin, finished_next t it2 hfin⟩

/-- Claim C8 witness: termination for the enumerated name of code point 65
in the demo tables. -/
theorem c8_witness :
    TablesWF demoTable ∧ sliceOk demoTable [2, 3, 4, 5] ∧
    ∃ k it2, k ≤ (Name.mk (NameInner.Enumeration [2, 3, 4, 5] "0041")).fuelOf ∧
      NameIter.nextN demoTable k
        (Name.mk (NameInner.Enumeration [2, 3, 4, 5] "0041")).iter = Except.ok it2 ∧
      it2.state = NameIterState.Finished ∧
      it2.next demoTable = Except.ok (none, it2) :=
  ⟨demoTable_wf, demo_slice_ok,
    c8_iteration_terminates demoTable demoTable_wf
      (Name.mk (NameInner.Enumeration [2, 3, 4, 5] "0041")) demo_slice_ok⟩

/-- Claim C2: `char_name` returns `Some` for every code point up to 0x10FFFF
and `None` for every larger integer. -/
theorem c2_char_name_total_iff_valid (t : Tables) (hWF : TablesWF t) (c : Nat) :
    (c ≤ 0x10FFFF → ∃ n, char_name t c = some n) ∧
      (0x10FFFF < c → char_name t c = none) := by
  constructor
  · intro hc
    rw [← Option.isSome_iff_exists]
    cases he : t.find_in_enumerate_names c with
    | some slice => simp [char_name, he]
    | none =>
      cases hg : t.find_in_special_groups c with
      | some g =>
        cases g <;> simp [char_name, he, hg, name_for_special_group_char]
      | none =>
        have hcp : is_code_point c = true := by
          simp only [is_code_point, CODE_POINT_MAX, decide_eq_true_eq]
          omega
        cases hnc : is_noncharacter c <;> simp [char_name, he, hg, hcp, hnc]
  · intro hc
    have he : t.find_in_enumerate_names c = none := by
      cases he2 : t.find_in_enumerate_names c with
      | none => rfl
      | some s => exact absurd (hWF.enum_in_range c s he2) (by omega)
    have hg : t.find_in_special_groups c = none := by
      cases hg2 : t.find_in_special_groups c with
      | none => rfl
      | some g => exact absurd (hWF.special_in_range c g hg2) (by omega)
    have hcp : is_code_point c = false := by
      simp only [is_code_point, CODE_POINT_MAX, decide_eq_false_iff_not]
      omega
    simp [char_name, he, hg, hcp]

/-- Claim C2 witness: instantiation at code point 65 and at the invalid
input 0x200000 in the demo tables. -/
theorem c2_witness :
    TablesWF demoTable ∧
    (65 ≤ 0x10FFFF → ∃ n, char_name demoTable 65 = some n) ∧
    (0x10FFFF < 0x200000 → char_name demoTable 0x200000 = none) :=
  ⟨demoTable_wf, (c2_char_name_total_iff_valid demoTable demoTable_wf 65).1,
    (c2_char_name_total_iff_valid demoTable demoTable_wf 0x200000).2⟩

/-- Claim C1 (divergence witness): the source's `is_noncharacter` omits the
final two code points of planes 10 through 15, so for 0xAFFFE — the
penultimate code point of plane 10, matched by neither demo table — the code
renders the reserved label, not the noncharacter label the claim requires;
the pattern does hold at plane 9 (0x9FFFE) and at the BMP range (0xFDD0). -/
theorem c1_noncharacter_plane_gap :
    is_noncharacter 0xAFFFE = false ∧ is_noncharacter 0xFFFFE = false ∧
    is_noncharacter 0x9FFFE = true ∧ is_noncharacter 0xFDD0 = true ∧
    demoTable.find_in_enumerate_names 0xAFFFE = none ∧
    demoTable.find_in_special_groups 0xAFFFE = none ∧
    ∃ n, char_name demoTable 0xAFFFE = some n ∧
      Name.render demoTable n = "<reserved-AFFFE>" := by
  refine ⟨by decide, by decide, by decide, by decide, rfl, rfl, ?_⟩
  exact ⟨_, rfl, by decide⟩

/-- Claim C6: a code point classified CJK (respectively Tangut) ideograph
renders as the fixed prefix followed immediately — no space — by the code
point's uppercase hex text padded to at least four digits. -/
theorem c6_nr2_ideograph_names (t : Tables) (hWF : TablesWF t) (c : Nat)
    (g : SpecialGroup) (hg : t.find_in_special_groups c = some g) :
    (isCJKGroup g = true → ∃ n, char_name t c = some n ∧
      Name.render t n = "CJK UNIFIED IDEOGRAPH-" ++ format04X c) ∧
    (isTangutGroup g = true → ∃ n, char_name t c = some n ∧
      Name.render t n = "TANGUT IDEOGRAPH-" ++ format04X c) := by
  have he : t.find_in_enumerate_names c = none := by
    rcases hWF.disjoint c with h | h
    · exact h
    · rw [h] at hg
      cases hg
  constructor <;> intro hcg <;> cases g <;> (try cases hcg) <;>
    exact ⟨nr2_name _ c,
      by simp [char_name, he, hg, name_for_special_group_char],
      render_generated t _⟩

/-- Claim C6 witness: in the demo tables, 0x20000 (CJK Extension B) renders
as the literal string with no separating space, and 0x17000 (Tangut). -/
theorem c6_witness :
    TablesWF demoTable ∧
    demoTable.find_in_special_groups 0x20000 = some SpecialGroup.CJKIdeographExtensionB ∧
    demoTable.find_in_special_groups 0x17000 = some SpecialGroup.TangutIdeograph ∧
    (isCJKGroup SpecialGroup.CJKIdeographExtensionB = true →
      ∃ n, char_name demoTable 0x20000 = some n ∧
        Name.render demoTable n = "CJK UNIFIED IDEOGRAPH-" ++ format04X 0x20000) ∧
    (isTangutGroup SpecialGroup.TangutIdeograph = true →
      ∃ n, char_name demoTable 0x17000 = some n ∧
        Name.render demoTable n = "TANGUT IDEOGRAPH-" ++ format04X 0x17000) ∧
    "CJK UNIFIED IDEOGRAPH-" ++ format04X 0x20000 = "CJK UNIFIED IDEOGRAPH-20000" :=
  ⟨demoTable_wf, rfl, rfl,
    (c6_nr2_ideograph_names demoTable demoTable_wf 0x20000
      SpecialGroup.CJKIdeographExtensionB rfl).1,
    (c6_nr2_ideograph_names demoTable demoTable_wf 0x17000
      SpecialGroup.TangutIdeograph rfl).2,
    by decide⟩

/-- Claim C7: a code point in a control, surrogate or private-use category
renders under `char_name` as an angle-bracketed label whose prefix is chosen
by sub-category alone, so all surrogate sub-bands (and all private-use
sub-bands) produce the identical label text. -/
theorem c7_label_names (t : Tables) (hWF : TablesWF t) (c : Nat)
    (g : SpecialGroup) (hg : t.find_in_special_groups c = some g) :
    (g = SpecialGroup.control → ∃ n, char_name t c = some n ∧
      Name.render t n = "<control-" ++ format04X c ++ ">") ∧
    (isSurrogateGroup g = true → ∃ n, char_name t c = some n ∧
      Name.render t n = "<surrogate-" ++ format04X c ++ ">") ∧
    (isPrivateUseGroup g = true → ∃ n, char_name t c = some n ∧
      Name.render t n = "<private-use-" ++ format04X c ++ ">") := by
  have he : t.find_in_enumerate_names c = none := by
    rcases hWF.disjoint c with h | h
    · exact h
    · rw [h] at hg
      cases hg
  refine ⟨?_, ?_, ?_⟩ <;> intro hcg <;> cases g <;> (try cases hcg) <;>
    exact ⟨code_point_label _ c true,
      by simp [char_name, he, hg, name_for_special_group_char],
      render_generated t _⟩

/-- Claim C7 witness: in the demo tables, the control label at 0x81, the
same surrogate label shape at both 0xD800 and 0xDC00, and the private-use
label at 0xE000. -/
theorem c7_witness :
    TablesWF demoTable ∧
    (SpecialGroup.control = SpecialGroup.control →
      ∃ n, char_name demoTable 0x81 = some n ∧
        Name.render demoTable n = "<control-" ++ format04X 0x81 ++ ">") ∧
    (isSurrogateGroup SpecialGroup.NonPrivateUseHighSurrogate = true →
      ∃ n, char_name demoTable 0xD800 = some n ∧
        Name.render demoTable n = "<surrogate-" ++ format04X 0xD800 ++ ">") ∧
    (isSurrogateGroup SpecialGroup.LowSurrogate = true →
      ∃ n, char_name demoTable 0xDC00 = some n ∧
        Name.render demoTable n = "<surrogate-" ++ format04X 0xDC00 ++ ">") ∧
    (isPrivateUseGroup SpecialGroup.PrivateUse = true →
      ∃ n, char_name demoTable 0xE000 = some n ∧
        Name.render demoTable n = "<private-use-" ++ format04X 0xE000 ++ ">") ∧
    "<control-" ++ format04X 0x81 ++ ">" = "<control-0081>" :=
  ⟨demoTable_wf,
    (c7_label_names demoTable demoTable_wf 0x81 SpecialGroup.control rfl).1,
    (c7_label_names demoTable demoTable_wf 0xD800
      SpecialGroup.NonPrivateUseHighSurrogate rfl).2.1,
    (c7_label_names demoTable demoTable_wf 0xDC00
      SpecialGroup.LowSurrogate rfl).2.1,
    (c7_label_names demoTable demoTable_wf 0xE000
      SpecialGroup.PrivateUse rfl).2.2,
    by decide⟩

/-- Claim C5: rendering a Name twice produces identical text and the
fragment sequence is restartable — any two independent full iterations from
fresh cursors over the same Name (run with any sufficient step budgets)
yield the same fragments in the same order. -/
theorem c5_render_restartable (t : Tables) (hWF : TablesWF t) (n : Name)
    (hn : nameOk t n) :
    ∀ f1 f2, n.fuelOf ≤ f1 → n.fuelOf ≤ f2 →
      NameIter.fragsFuel t f1 n.iter = NameIter.fragsFuel t f2 n.iter ∧
      String.join (NameIter.fragsFuel t f1 n.iter) = Name.render t n := by
  intro f1 f2 h1 h2
  have hm := measure_le_fuelOf n
  have hio := nameOk_iterOk t n hn
  have e1 := fragsFuel_stable t hWF (iterMeasure n.iter) n.iter le_rfl hio f1 (by omega)
  have e2 := fragsFuel_stable t hWF (iterMeasure n.iter) n.iter le_rfl hio f2 (by omega)
  have e3 := fragsFuel_stable t hWF (iterMeasure n.iter) n.iter le_rfl hio n.fuelOf (by omega)
  refine ⟨by rw [e1, e2], ?_⟩
  rw [Name.render, Name.fragments, e1, e3]

/-- Claim C5 witness: two iterations with different budgets over the
enumerated name of code point 65 agree, and rendering matches. -/
theorem c5_witness :
    TablesWF demoTable ∧ sliceOk demoTable [2, 3, 4, 5] ∧
    (Name.mk (NameInner.Enumeration [2, 3, 4, 5] "0041")).fuelOf ≤ 10 ∧
    (Name.mk (NameInner.Enumeration [2, 3, 4, 5] "0041")).fuelOf ≤ 25 ∧
    (NameIter.fragsFuel demoTable 10
        (Name.mk (NameInner.Enumeration [2, 3, 4, 5] "0041")).iter =
      NameIter.fragsFuel demoTable 25
        (Name.mk (NameInner.Enumeration [2, 3, 4, 5] "0041")).iter ∧
     String.join (NameIter.fragsFuel demoTable 10
        (Name.mk (NameInner.Enumeration [2, 3, 4, 5] "0041")).iter) =
      Name.render demoTable (Name.mk (NameInner.Enumeration [2, 3, 4, 5] "0041"))) :=
  ⟨demoTable_wf, demo_slice_ok, by decide, by decide,
    c5_render_restartable demoTable demoTable_wf
      (Name.mk (NameInner.Enumeration [2, 3, 4, 5] "0041")) demo_slice_ok
      10 25 (by decide) (by decide)⟩

/-- Claim C4: the fragment sequence of an enumerated Name is exactly the
word texts of its slice left to right — with the cached hex text substituted
at the code-point-substitution sentinel — with a single space fragment
between two consecutive words exactly when neither is flagged special, and
an empty slice yields an empty sequence. -/
theorem c4_enumeration_fragment_spec (t : Tables) (hWF : TablesWF t)
    (slice : List Nat) (hs : sliceOk t slice) (repr : String) :
    Name.fragments t (Name.mk (NameInner.Enumeration slice repr)) =
      renderWords t repr slice ∧
    Name.render t (Name.mk (NameInner.Enumeration slice repr)) =
      String.join (renderWords t repr slice) ∧
    (slice = [] →
      Name.fragments t (Name.mk (NameInner.Enumeration slice repr)) = []) := by
  have h := fragments_enum t hWF slice hs repr
  refine ⟨h, by rw [Name.render, h], ?_⟩
  intro he
  rw [h, he]
  rfl

/-- Claim C4 witness: the fragment sequence for the demo slice of code
point 65, and for a slice exercising the special flag and the sentinel. -/
theorem c4_witness :
    TablesWF demoTable ∧ sliceOk demoTable [2, 3, 4, 5] ∧
    (Name.fragments demoTable (Name.mk (NameInner.Enumeration [2, 3, 4, 5] "0041")) =
        renderWords demoTable "0041" [2, 3, 4, 5] ∧
      Name.render demoTable (Name.mk (NameInner.Enumeration [2, 3, 4, 5] "0041")) =
        String.join (renderWords demoTable "0041" [2, 3, 4, 5]) ∧
      ([2, 3, 4, 5] = ([] : List Nat) →
        Name.fragments demoTable (Name.mk (NameInner.Enumeration [2, 3, 4, 5] "0041")) = [])) ∧
    renderWords demoTable "0041" [2, 3, 4, 5] = ["LATIN", " ", "CAPITAL", " ", "LETTER", " ", "A"] ∧
    Name.fragments demoTable (Name.mk (NameInner.Enumeration [2, 6, 5, 1] "0041")) =
      ["LATIN", "-", "A", " ", "0041"] :=
  ⟨demoTable_wf, demo_slice_ok,
    c4_enumeration_fragment_spec demoTable demoTable_wf [2, 3, 4, 5] demo_slice_ok "0041",
    by decide, by decide⟩

/-- Claim C3: `property_name` returns `None` exactly on the control,
surrogate, private-use, reserved and noncharacter classes and on invalid
input, and on every other code point it yields a name rendering the same
text as the one `char_name` yields. -/
theorem c3_property_name_agreement (t : Tables) (hWF : TablesWF t) (c : Nat) :
    (noNameClass t c → property_name t c = none) ∧
    (¬noNameClass t c → ∃ n m, char_name t c = some n ∧ property_name t c = some m ∧
      Name.render t m = Name.render t n) := by
  constructor
  · intro h
    rcases h with h | ⟨g, hg, hl⟩ | ⟨hc, he, hg⟩
    · have he : t.find_in_enumerate_names c = none := by
        cases he2 : t.find_in_enumerate_names c with
        | none => rfl
        | some s => exact absurd (hWF.enum_in_range c s he2) (by omega)
      have hg : t.find_in_special_groups c = none := by
        cases hg2 : t.find_in_special_groups c with
        | none => rfl
        | some g => exact absurd (hWF.special_in_range c g hg2) (by omega)
      simp [property_name, he, hg]
    · have he : t.find_in_enumerate_names c = none := by
        rcases hWF.disjoint c with h2 | h2
        · exact h2
        · rw [h2] at hg
          cases hg
      cases g <;> simp [isLabelGroup, isSurrogateGroup, isPrivateUseGroup] at hl <;>
        simp [property_name, he, hg, name_for_special_group_char]
    · simp [property_name, he, hg]
  · intro h
    have hc : c ≤ 0x10FFFF := by
      by_contra hc2
      exact h (Or.inl (by omega))
    cases he : t.find_in_enumerate_names c with
    | some slice =>
      exact ⟨Name.mk (NameInner.Enumeration slice (format04X c)),
        Name.mk (NameInner.Enumeration slice (format04X c)),
        by simp [char_name, he], by simp [property_name, he], rfl⟩
    | none =>
      cases hg : t.find_in_special_groups c with
      | none => exact absurd (Or.inr (Or.inr ⟨hc, he, hg⟩)) h
      | some g =>
        have hnl : ¬isLabelGroup g = true := fun hl => h (Or.inr (Or.inl ⟨g, hg, hl⟩))
        cases g <;>
          first
          | exact absurd (by decide) hnl
          | (have hsome : (char_name t c).isSome = true := by
               simp [char_name, he, hg, name_for_special_group_char]
             have hsame : property_name t c = char_name t c := by
               simp [char_name, property_name, he, hg, name_for_special_group_char]
             obtain ⟨n, hn⟩ := Option.isSome_iff_exists.mp hsome
             exact ⟨n, n, hn, by rw [hsame, hn], rfl⟩)

/-- Claim C3 witness: property resolution at the control code point 0x81
(no result) and agreement at the enumerated code point 65 and the CJK
code point 0x20000 in the demo tables. -/
theorem c3_witness :
    TablesWF demoTable ∧
    (noNameClass demoTable 0x81 → property_name demoTable 0x81 = none) ∧
    (¬noNameClass demoTable 65 →
      ∃ n m, char_name demoTable 65 = some n ∧ property_name demoTable 65 = some m ∧
        Name.render demoTable m = Name.render demoTable n) ∧
    (¬noNameClass demoTable 0x20000 →
      ∃ n m, char_name demoTable 0x20000 = some n ∧
        property_name demoTable 0x20000 = some m ∧
        Name.render demoTable m = Name.render demoTable n) :=
  ⟨demoTable_wf,
    (c3_property_name_agreement demoTable demoTable_wf 0x81).1,
    (c3_property_name_agreement demoTable demoTable_wf 65).2,
    (c3_property_name_agreement demoTable demoTable_wf 0x20000).2⟩
